import Mathlib

/-!
Verification development for the preeti-unicode-converter repository.

Strings are modelled as `List Char` (one entry per Unicode code point,
matching Python `str` indexing).  Python dictionaries keyed by characters
become pattern-matching functions returning `Option`; Python list indexing
becomes `List.get?`; the `try`/`except` fallback in the per-character
conversion loop is modelled explicitly with `Option`.
-/

namespace Preeti

/-- `PreetiUnicodeConverter.unicode_a_to_z` from `converter.py`:
targets of the lowercase letters a-z, in order. -/
def unicode_a_to_z : List (List Char) :=
  [['ब'], ['द'], ['अ'], ['म'], ['भ'], ['ा'], ['न'], ['ज'], ['ष', '्'], ['व'],
   ['प'], ['ि'], ['फ'], ['ल'], ['य'], ['उ'], ['त', '्', 'र'], ['च'], ['क'], ['त'],
   ['ग'], ['ख'], ['ध'], ['ह'], ['थ'], ['श']]

/-- `PreetiUnicodeConverter.unicode_A_to_Z` from `converter.py`:
targets of the uppercase letters A-Z, in order. -/
def unicode_A_to_Z : List (List Char) :=
  [['ब', '्'], ['ध'], ['ऋ'], ['म', '्'], ['भ', '्'], ['ँ'], ['न', '्'], ['ज', '्'],
   ['क', '्', 'ष', '्'], ['व', '्'],
   ['प', '्'], ['ी'], ['ः'], ['ल', '्'], ['इ'], ['ए'], ['त', '्', 'त'], ['च', '्'],
   ['क', '्'], ['त', '्'],
   ['ग', '्'], ['ख', '्'], ['ध', '्'], ['ह', '्'], ['थ', '्'], ['श', '्']]

/-- `PreetiUnicodeConverter.unicode_0_to_9` from `converter.py`:
targets of the digits 0-9, in order. -/
def unicode_0_to_9 : List (List Char) :=
  [['ण', '्'], ['ज', '्', 'ञ'], ['द', '्', 'द'], ['घ'], ['द', '्', 'ध'],
   ['छ'], ['ट'], ['ठ'], ['ड'], ['ढ']]

/-- `PreetiUnicodeConverter.symbols_dict` from `converter.py`, as a lookup
function (`dict.get`); `none` models a missing key. -/
def symbolsDict : Char → Option (List Char)
  | '~' => some ['ञ', '्']
  | '`' => some ['ञ']
  | '!' => some ['१']
  | '@' => some ['२']
  | '#' => some ['३']
  | '$' => some ['४']
  | '%' => some ['५']
  | '^' => some ['६']
  | '&' => some ['७']
  | '*' => some ['८']
  | '(' => some ['९']
  | ')' => some ['०']
  | '-' => some ['(']
  | '_' => some [')']
  | '+' => some ['ं']
  | '[' => some ['ृ']
  | '{' => some ['र', '्']
  | ']' => some ['े']
  | '}' => some ['ै']
  | '\\' => some ['्']
  | '|' => some ['्', 'र']
  | ';' => some ['स']
  | ':' => some ['स', '्']
  | '\'' => some ['ु']
  | '"' => some ['ू']
  | ',' => some [',']
  | '<' => some ['?']
  | '.' => some ['।']
  | '>' => some ['श', '्', 'र']
  | '/' => some ['र']
  | '?' => some ['र', 'ु']
  | '=' => some ['.']
  | 'ˆ' => some ['फ', '्']
  | 'Î' => some ['ङ', '्', 'ख']
  | 'å' => some ['द', '्', 'व']
  | '÷' => some ['/']
  | '«' => some ['्', 'र']
  | '»' => some ['्', 'र']
  | '°' => some ['्', 'र']
  | '¿' => some ['्', 'र']
  | '¡' => some ['्', 'र']
  | _ => none

/-- `PreetiUnicodeConverter.nepali_numerals` from `converter.py`, as a lookup
function (`dict.get`). -/
def nepaliNumerals : Char → Option Char
  | '0' => some '०'
  | '1' => some '१'
  | '2' => some '२'
  | '3' => some '३'
  | '4' => some '४'
  | '5' => some '५'
  | '6' => some '६'
  | '7' => some '७'
  | '8' => some '८'
  | '9' => some '९'
  | _ => none

/-- Python `str.replace(pat, repl)` for a two-character pattern `ab`
(every pattern used by `normalize_preeti` has exactly two characters):
leftmost, non-overlapping replacement of every occurrence. -/
def replace2 (a b : Char) (repl : List Char) : List Char → List Char
  | [] => []
  | [c] => [c]
  | c :: c1 :: rest =>
    if c = a ∧ c1 = b then repl ++ replace2 a b repl rest
    else c :: replace2 a b repl (c1 :: rest)

/-- The chain of literal pre-substitutions performed at the top of
`normalize_preeti` (`converter.py` lines 75-76), in source order. -/
def applyReps (t : List Char) : List Char :=
  replace2 'c' 'f' ['आ']
    (replace2 'i' 'f' ['ष']
      (replace2 'I' 'f' ['क', '्', 'ष']
        (replace2 '0' 'f' ['ण']
          (replace2 'k' 'm' ['फ']
            (replace2 'f' ']' ['ो']
              (replace2 'q' 'm' ['s', '|'] t))))))

/-- The scanning loop of `normalize_preeti` (`converter.py` lines 78-106).
`p` is `previous_symbol` (either `[]` or `['l']`).  The three-element
pattern mirrors the `index + 2 < len(text)` lookahead, the two-element
pattern the `index + 1 < len(text)` lookahead; the `try/except IndexError`
in the source is dead because both accesses are bounds-checked first. -/
def normCore : List Char → List Char → List Char
  | [], _ => []
  | [c], p =>
    if c = 'l' then [] else c :: p
  | [c, c1], p =>
    if c1 = '{' ∧ c ≠ 'f' then ['{', c]
    else if c = 'l' then normCore [c1] ['l']
    else c :: p ++ normCore [c1] []
  | c :: c1 :: c2 :: rest, p =>
    if c2 = '{' ∧ (c1 = 'f' ∨ c1 = 'ो') then
      '{' :: c :: c1 :: normCore rest p
    else if c1 = '{' ∧ c ≠ 'f' then
      '{' :: c :: normCore (c2 :: rest) p
    else if c = 'l' then normCore (c1 :: c2 :: rest) ['l']
    else c :: p ++ normCore (c1 :: c2 :: rest) []

/-- `PreetiUnicodeConverter.normalize_preeti` from `converter.py`:
literal pre-substitutions followed by the reordering scan.  The guard
mirrors `if not preeti_text: return ""`. -/
def normalizePreeti (t : List Char) : List Char :=
  if t = [] then [] else normCore (applyReps t) []

/-- The body of the `try` block inside `convert_to_unicode`'s character loop
(`converter.py` lines 126-141): `none` is an `IndexError` from list
indexing (which for `0 ≤ i < 26` resp. `0 ≤ i < 10` never happens). -/
def convertCharTry (c : Char) : Option (List Char) :=
  if 97 ≤ c.toNat ∧ c.toNat ≤ 122 then unicode_a_to_z.get? (c.toNat - 97)
  else if 65 ≤ c.toNat ∧ c.toNat ≤ 90 then unicode_A_to_Z.get? (c.toNat - 65)
  else if 48 ≤ c.toNat ∧ c.toNat ≤ 57 then unicode_0_to_9.get? (c.toNat - 48)
  else some ((symbolsDict c).getD [c])

/-- One character of `convert_to_unicode`'s loop, `except` branch included:
on `IndexError`/`KeyError` the original character is kept. -/
def convertChar (c : Char) : List Char :=
  (convertCharTry c).getD [c]

/-- `PreetiUnicodeConverter.convert_to_unicode` from `converter.py`. -/
def convertToUnicode (t : List Char) : List Char :=
  if t = [] then [] else ((normalizePreeti t).map convertChar).flatten

/-- `PreetiUnicodeConverter.convert_numbers_to_nepali` from `converter.py`. -/
def convertNumbersToNepali (t : List Char) : List Char :=
  if t = [] then [] else t.map (fun c => (nepaliNumerals c).getD c)

/-- The module-level `convert_text(text, convert_numbers)` from
`converter.py` (lines 172-200). -/
def convertText (t : List Char) (convertNumbers : Bool) : List Char :=
  if t = [] then []
  else
    let u := convertToUnicode t
    if convertNumbers then convertNumbersToNepali u else u

end Preeti

namespace Fonts

/-- `FontRule` from `fonts/font_manager.py`.  All rules built by the
modules under study use `MappingType.CHARACTER`, so the embedding covers
that mapping type; `conditions` and `metadata` carry no behaviour.
`ctxBefore`/`ctxAfter` model `context_before`/`context_after`; Python's
truthiness test `if self.context_before:` treats `some []` like `none`. -/
structure FontRule where
  source : List Char
  target : List Char
  priority : Int := 0
  ctxBefore : Option (List Char) := none
  ctxAfter : Option (List Char) := none
deriving DecidableEq, Repr

/-- `FontRule.matches_context` from `fonts/font_manager.py` (lines 53-78).
`text.take pos |>.drop (pos - cb.length)` is the Python slice
`text[max(0, position - len(cb)):position]`; the `after` slice clamps the
same way the Python slice does. -/
def FontRule.matchesContext (r : FontRule) (text : List Char) (pos : Nat) : Bool :=
  (match r.ctxBefore with
   | none => true
   | some cb =>
     if cb = [] then true
     else cb.isSuffixOf ((text.take pos).drop (pos - cb.length))) &&
  (match r.ctxAfter with
   | none => true
   | some ca =>
     if ca = [] then true
     else ca.isPrefixOf ((text.drop (pos + r.source.length)).take ca.length))

/-- `FontRule.apply` from `fonts/font_manager.py` for a
`MappingType.CHARACTER` rule: splice the target over the source span and
step past the target. -/
def FontRule.applyRule (r : FontRule) (text : List Char) (pos : Nat) :
    List Char × Nat :=
  (text.take pos ++ r.target ++ text.drop (pos + r.source.length),
   pos + r.target.length)

/-- The rule-selection step of `FontMapping.convert_text`
(`font_manager.py` lines 178-189): the first rule in list order whose
source matches at `pos` and whose context check passes. -/
def findRule (rules : List FontRule) (text : List Char) (pos : Nat) :
    Option FontRule :=
  rules.find? fun r =>
    decide (pos + r.source.length ≤ text.length) &&
    ((text.drop pos).take r.source.length == r.source) &&
    r.matchesContext text pos

/-- The `while position < len(result)` loop of `FontMapping.convert_text`,
with explicit fuel.  Whenever every applicable rule has a non-empty
source each iteration decreases `result.length - pos`, so fuel
`text.length + 1` makes this an exact model of the Python loop (an
empty-source rule makes the Python loop diverge; the model then stops
returning the intermediate result). -/
def convertLoop : Nat → List FontRule → List Char → Nat → List Char
  | 0, _, result, _ => result
  | fuel + 1, rules, result, pos =>
    if pos < result.length then
      match findRule rules result pos with
      | some r =>
        let s := r.applyRule result pos
        convertLoop fuel rules s.1 s.2
      | none => convertLoop fuel rules result (pos + 1)
    else result

/-- Stable insertion (after all elements of priority `≥ r.priority`),
the building block of a stable descending sort. -/
def insertRule (r : FontRule) : List FontRule → List FontRule
  | [] => [r]
  | x :: xs => if x.priority ≥ r.priority then x :: insertRule r xs
               else r :: x :: xs

/-- Python's stable `list.sort(key=lambda r: r.priority, reverse=True)`
used by `FontMapping.__post_init__` and `FontMapping.add_rule`:
descending by priority, ties keep insertion order. -/
def sortRules (rules : List FontRule) : List FontRule :=
  rules.foldl (fun acc r => insertRule r acc) []

/-- `FontMapping` from `fonts/font_manager.py`, restricted to the fields
with behaviour.  `mk'` models construction through `__post_init__`
(which sorts the rule list). -/
structure FontMapping where
  name : List Char
  rules : List FontRule
deriving DecidableEq, Repr

/-- `FontMapping(...)` construction: `__post_init__` sorts the rules by
priority, descending, stably. -/
def FontMapping.mk' (name : List Char) (rules : List FontRule) : FontMapping :=
  ⟨name, sortRules rules⟩

/-- `FontMapping.add_rule` from `fonts/font_manager.py` (lines 130-139):
append, then re-sort (stable, descending priority). -/
def FontMapping.addRule (m : FontMapping) (r : FontRule) : FontMapping :=
  ⟨m.name, sortRules (m.rules ++ [r])⟩

/-- `FontMapping.convert_text` from `fonts/font_manager.py`
(lines 158-195). -/
def FontMapping.convertText (m : FontMapping) (text : List Char) : List Char :=
  if text = [] then text else convertLoop (text.length + 1) m.rules text 0

/-- Modelled from the spec: the rule-match predicate of the reference
resolver of spec §4.2, over the unmodified normalized source.  `prev` is
the source text before the cursor, `rest` the source text from the cursor
on: a rule matches if `rest` starts with its source, `prev` ends with
`context_before` (when specified), and the source following the matched
span starts with `context_after` (when specified). -/
def refFind (rules : List FontRule) (prev rest : List Char) : Option FontRule :=
  rules.find? fun r =>
    decide (r.source.length ≤ rest.length) &&
    (rest.take r.source.length == r.source) &&
    (match r.ctxBefore with
     | none => true
     | some cb => if cb = [] then true else cb.isSuffixOf prev) &&
    (match r.ctxAfter with
     | none => true
     | some ca =>
       if ca = [] then true
       else ca.isPrefixOf ((rest.drop r.source.length).take ca.length))

/-- Modelled from the spec: the scan loop of the reference resolver of
spec §4.2.  The matched rule's target goes to a separate output and the
cursor advances by the rule's source length over the unmodified source;
an unmatched character is copied through.  Fuel as in `convertLoop`. -/
def refGo : Nat → List FontRule → List Char → List Char → List Char
  | 0, _, _, _ => []
  | _ + 1, _, _, [] => []
  | fuel + 1, rules, prev, c :: rest =>
    match refFind rules prev (c :: rest) with
    | some r =>
      r.target ++
        refGo fuel rules (prev ++ (c :: rest).take r.source.length)
          ((c :: rest).drop r.source.length)
    | none => c :: refGo fuel rules (prev ++ [c]) rest

/-- Modelled from the spec: the reference resolver of spec §4.2 applied
to a whole normalized string. -/
def refResolve (rules : List FontRule) (text : List Char) : List Char :=
  refGo (text.length + 1) rules [] text

end Fonts

namespace Variants

/-- `PreetiVariantDetector._variant_patterns['preeti_plus']` from
`fonts/preeti_variants.py`. -/
def plusMarkers : List Char := ['ç', 'é', 'ñ', 'ó', 'ú', 'ü']

/-- `PreetiVariantDetector._variant_patterns['kantipur']` from
`fonts/preeti_variants.py`. -/
def kantipurMarkers : List Char := ['Ç', 'É', 'Ñ', 'Ó', 'Ú', 'Ü']

/-- `sum(1 for char in markers if char in text)`: the number of marker
characters that occur (at least once) in `text`. -/
def variantScore (markers text : List Char) : Nat :=
  (markers.filter fun c => text.contains c).length

/-- `PreetiVariantDetector.detect_variant` from `fonts/preeti_variants.py`
(lines 42-75).  `fontName = none` is Python `font_name=None`; an empty
string is falsy, like `None`.  `Char.toLower` models `str.lower` (they
agree on ASCII, which is all the checked substrings contain). -/
def detectVariant (text : List Char) (fontName : Option (List Char)) : String :=
  let byName : Option String :=
    match fontName with
    | none => none
    | some fn =>
      if fn = [] then none
      else
        let fnl := fn.map Char.toLower
        if ['p', 'l', 'u', 's'] <:+: fnl then some "preeti_plus"
        else if ['k', 'a', 'n', 't', 'i', 'p', 'u', 'r'] <:+: fnl then
          some "kantipur"
        else none
  match byName with
  | some v => v
  | none =>
    if text = [] then "standard"
    else
      let plusScore := variantScore plusMarkers text
      let kantipurScore := variantScore kantipurMarkers text
      if plusScore > kantipurScore ∧ plusScore > 0 then "preeti_plus"
      else if kantipurScore > 0 then "kantipur"
      else "standard"

end Variants

namespace Custom

/-- `MappingRule` from `fonts/custom_fonts.py` (behavioural fields). -/
structure MappingRule where
  fromChar : List Char
  toChar : List Char
  priority : Int := 0
  before : Option (List Char) := none
  after : Option (List Char) := none
deriving DecidableEq, Repr

/-- `MappingRule.to_font_rule` from `fonts/custom_fonts.py`. -/
def MappingRule.toFontRule (r : MappingRule) : Fonts.FontRule :=
  ⟨r.fromChar, r.toChar, r.priority, r.before, r.after⟩

/-- `FontDefinition` from `fonts/custom_fonts.py` (the fields that feed
`to_font_mapping` and the validators; the purely descriptive metadata
fields carry no behaviour). -/
structure FontDefinition where
  name : List Char
  displayName : List Char
  fontType : List Char := "custom".toList
  rules : List MappingRule := []
deriving Repr

/-- `FontDefinition.to_font_mapping` from `fonts/custom_fonts.py`
(lines 104-135): every step is total — the `FontType(...)` parse falls
back to `CUSTOM` on `ValueError`, rule conversion is pure, and the
`FontMapping` constructor only sorts. -/
def FontDefinition.toFontMapping (d : FontDefinition) : Fonts.FontMapping :=
  Fonts.FontMapping.mk' d.name (d.rules.map MappingRule.toFontRule)

/-- `ConfigurationError` from `core/exceptions.py`, as a value. -/
structure ConfigError where
  msg : String
deriving DecidableEq, Repr

/-- `FontRegistry.register_font` from `fonts/font_registry.py`
(lines 74-97): `to_font_mapping` and `register_mapping` (a dict insert
plus logging) are total, so the `except` branch that wraps them in a
`ConfigurationError` is dead and registration succeeds on every
definition, validated or not. -/
def registerFont (d : FontDefinition) : Except ConfigError Fonts.FontMapping :=
  .ok d.toFontMapping

/-- `validate_basic_fields` from
`CustomFontLoader._add_default_validators` in `fonts/custom_fonts.py`. -/
def validateBasicFields (d : FontDefinition) : List String :=
  (if d.name = [] then ["Font name is required"] else []) ++
  (if d.displayName = [] then ["Display name is required"] else []) ++
  (if d.rules = [] then ["At least one conversion rule is required"] else [])

/-- `validate_rules` from `CustomFontLoader._add_default_validators` in
`fonts/custom_fonts.py`. -/
def validateRules (d : FontDefinition) : List String :=
  d.rules.enum.flatMap fun p =>
    (if p.2.fromChar = [] then
       ["Rule " ++ toString p.1 ++ ": source character is required"]
     else []) ++
    (if p.2.toChar = [] then
       ["Rule " ++ toString p.1 ++ ": target character is required"]
     else [])

/-- `CustomFontLoader.validate_definition` with the two default
validators (`fonts/custom_fonts.py` lines 269-288); neither validator can
raise, so the `except` branch inside the loop is dead. -/
def validateDefinition (d : FontDefinition) : List String :=
  validateBasicFields d ++ validateRules d

end Custom

section Helpers

open Preeti

/-- An ASCII decimal digit, by code point (`48 ≤ ord c ≤ 57`). -/
def isAsciiDigit (c : Char) : Prop := 48 ≤ c.toNat ∧ c.toNat ≤ 57

instance (c : Char) : Decidable (isAsciiDigit c) := by
  unfold isAsciiDigit; infer_instance

lemma symbolsDict_no_digit (c : Char) (s : List Char)
    (h : symbolsDict c = some s) : ∀ d ∈ s, ¬ isAsciiDigit d := by
  unfold symbolsDict at h
  split at h <;> cases h <;> decide

lemma nepaliNumerals_isSome {c : Char} (h : (nepaliNumerals c).isSome) :
    isAsciiDigit c := by
  unfold nepaliNumerals at h
  split at h <;> simp_all <;> decide

lemma convertCharTry_spec (c : Char) :
    ∃ s, convertCharTry c = some s ∧ ∀ d ∈ s, ¬ isAsciiDigit d := by
  unfold convertCharTry
  split_ifs with h1 h2 h3
  · have hlt : c.toNat - 97 < unicode_a_to_z.length := by
      simp only [unicode_a_to_z, List.length]; omega
    cases hget : unicode_a_to_z.get? (c.toNat - 97) with
    | none =>
      exact absurd (List.get?_eq_none.mp hget) (by omega)
    | some s =>
      have hm : s ∈ unicode_a_to_z := List.get?_mem hget
      have hall : ∀ s ∈ unicode_a_to_z, ∀ d ∈ s, ¬ isAsciiDigit d := by decide
      exact ⟨s, rfl, hall s hm⟩
  · have hlt : c.toNat - 65 < unicode_A_to_Z.length := by
      simp only [unicode_A_to_Z, List.length]; omega
    cases hget : unicode_A_to_Z.get? (c.toNat - 65) with
    | none =>
      exact absurd (List.get?_eq_none.mp hget) (by omega)
    | some s =>
      have hm : s ∈ unicode_A_to_Z := List.get?_mem hget
      have hall : ∀ s ∈ unicode_A_to_Z, ∀ d ∈ s, ¬ isAsciiDigit d := by decide
      exact ⟨s, rfl, hall s hm⟩
  · have hlt : c.toNat - 48 < unicode_0_to_9.length := by
      simp only [unicode_0_to_9, List.length]; omega
    cases hget : unicode_0_to_9.get? (c.toNat - 48) with
    | none =>
      exact absurd (List.get?_eq_none.mp hget) (by omega)
    | some s =>
      have hm : s ∈ unicode_0_to_9 := List.get?_mem hget
      have hall : ∀ s ∈ unicode_0_to_9, ∀ d ∈ s, ¬ isAsciiDigit d := by decide
      exact ⟨s, rfl, hall s hm⟩
  · refine ⟨(symbolsDict c).getD [c], rfl, ?_⟩
    cases hs : symbolsDict c with
    | some s => simpa [hs] using symbolsDict_no_digit c s hs
    | none =>
      intro d hd
      simp only [hs, Option.getD_none, List.mem_singleton] at hd
      subst hd
      intro hdig
      exact h3 ⟨hdig.1, hdig.2⟩

lemma convertChar_no_digit (c : Char) : ∀ d ∈ convertChar c, ¬ isAsciiDigit d := by
  obtain ⟨s, hs, hnd⟩ := convertCharTry_spec c
  simpa [convertChar, hs] using hnd

lemma convertToUnicode_no_digit (t : List Char) :
    ∀ d ∈ convertToUnicode t, ¬ isAsciiDigit d := by
  intro d hd
  unfold convertToUnicode at hd
  split at hd
  · simp at hd
  · simp only [List.mem_flatten, List.mem_map] at hd
    obtain ⟨s, ⟨c, _, rfl⟩, hds⟩ := hd
    exact convertChar_no_digit c d hds

lemma convertNumbersToNepali_of_no_digit {t : List Char}
    (h : ∀ d ∈ t, ¬ isAsciiDigit d) : convertNumbersToNepali t = t := by
  unfold convertNumbersToNepali
  split
  case isTrue ht => exact ht.symm
  case isFalse hf =>
    rw [show t.map (fun c => (nepaliNumerals c).getD c) = t.map id by
          apply List.map_congr_left
          intro c hc
          cases hn : nepaliNumerals c with
          | none => rfl
          | some d =>
            exact absurd (nepaliNumerals_isSome (by simp [hn])) (h c hc)]
    exact t.map_id

end Helpers

/-- C7: for a consonant code followed immediately by the pre-base marker
source, conversion emits the consonant's mapping followed by the marker's
mapping, never reversed: `convert_text("k]") = "पे"`, not `"ेप"`. -/
theorem claim_C7_reorder :
    Preeti.convertText ['k', ']'] true = ['प', 'े'] ∧
    Preeti.convertText ['k', ']'] true ≠ ['े', 'प'] := by
  decide

/-- C6: every stage of `convert_text` is a total function of the embedding,
and the `except (KeyError, IndexError)` fallback inside
`convert_to_unicode`'s character loop is unreachable: for every character
the `try` body already produces a value, which is what the loop emits. -/
theorem claim_C6_total_no_fallback :
    ∀ c : Char, ∃ s, Preeti.convertCharTry c = some s ∧ Preeti.convertChar c = s := by
  intro c
  obtain ⟨s, hs, _⟩ := convertCharTry_spec c
  exact ⟨s, hs, by simp [Preeti.convertChar, hs]⟩

/-- C2 (counterexample): `convert_text("0", convert_numbers := false)` does
not leave the ASCII digit unchanged — the digit is consumed by the Preeti
digit table and becomes `ण्`. -/
theorem claim_C2_counterexample :
    Preeti.convertText ['0'] false = ['ण', '्'] ∧
    Preeti.convertText ['0'] false ≠ ['0'] := by
  decide

/-- C2 (amended): ASCII digits are never left unchanged — each digit not
consumed by a literal substitution maps through the Preeti digit table —
and the `convert_numbers` flag has no effect at all, because
`convert_to_unicode` never leaves an ASCII digit in its output, so the
digit-localization post-pass finds nothing to replace. -/
theorem claim_C2_amended :
    ∀ (t : List Char) (b₁ b₂ : Bool),
      Preeti.convertText t b₁ = Preeti.convertText t b₂ := by
  intro t b₁ b₂
  unfold Preeti.convertText
  split
  · rfl
  · have hid := convertNumbersToNepali_of_no_digit (convertToUnicode_no_digit t)
    cases b₁ <;> cases b₂ <;> simp [hid]

lemma variantScore_nil (m : List Char) : Variants.variantScore m [] = 0 := by
  simp [Variants.variantScore]

/-- C4 (counterexample): when the two variants' marker scores tie with a
positive value, `detect_variant` returns `kantipur`, not the default
`standard` that the claim requires for ties. -/
theorem claim_C4_counterexample :
    Variants.detectVariant ['ç', 'Ç'] none = "kantipur" ∧
    Variants.detectVariant ['ç', 'Ç'] none ≠ "standard" := by
  constructor
  · rfl
  · decide

/-- C4 (amended): `detect_variant` never fails and resolves as follows.
With a non-empty font name, a case-insensitive `plus` substring wins
first, then `kantipur` (so a name containing both yields `preeti_plus`).
Without a name signal, the variant scores count how many of the variant's
exclusive marker characters occur in the text; `preeti_plus` needs a
strictly higher score than `kantipur`, any other positive `kantipur`
score (ties included) yields `kantipur`, and `standard` is returned only
when both scores are zero. -/
theorem claim_C4_amended :
    (∀ (t fn : List Char), fn ≠ [] →
        ['p', 'l', 'u', 's'] <:+: fn.map Char.toLower →
        Variants.detectVariant t (some fn) = "preeti_plus") ∧
    (∀ (t fn : List Char), fn ≠ [] →
        ¬ (['p', 'l', 'u', 's'] <:+: fn.map Char.toLower) →
        ['k', 'a', 'n', 't', 'i', 'p', 'u', 'r'] <:+: fn.map Char.toLower →
        Variants.detectVariant t (some fn) = "kantipur") ∧
    (∀ t : List Char,
        Variants.variantScore Variants.kantipurMarkers t <
          Variants.variantScore Variants.plusMarkers t →
        Variants.detectVariant t none = "preeti_plus") ∧
    (∀ t : List Char,
        0 < Variants.variantScore Variants.kantipurMarkers t →
        Variants.variantScore Variants.plusMarkers t ≤
          Variants.variantScore Variants.kantipurMarkers t →
        Variants.detectVariant t none = "kantipur") ∧
    (∀ t : List Char,
        Variants.variantScore Variants.plusMarkers t = 0 →
        Variants.variantScore Variants.kantipurMarkers t = 0 →
        Variants.detectVariant t none = "standard") := by
  refine ⟨?_, ?_, ?_, ?_, ?_⟩
  · intro t fn h0 h1
    simp [Variants.detectVariant, h0, h1]
  · intro t fn h0 h1 h2
    simp [Variants.detectVariant, h0, h1, h2]
  · intro t h
    have ht : t ≠ [] := by
      rintro rfl
      simp [variantScore_nil] at h
    simp [Variants.detectVariant, ht, h, Nat.lt_of_le_of_lt (Nat.zero_le _) h]
  · intro t h1 h2
    have ht : t ≠ [] := by
      rintro rfl
      simp [variantScore_nil] at h1
    have hno : ¬ (Variants.variantScore Variants.kantipurMarkers t <
        Variants.variantScore Variants.plusMarkers t ∧
        0 < Variants.variantScore Variants.plusMarkers t) := by
      rintro ⟨h3, _⟩; omega
    simp [Variants.detectVariant, ht, hno, h1]
  · intro t h1 h2
    by_cases ht : t = []
    · simp [Variants.detectVariant, ht]
    · simp [Variants.detectVariant, ht, h1, h2]

/-- C4 (witness): the amended characterization at concrete inputs. -/
theorem claim_C4_witness :
    Variants.detectVariant [] (some ['P', 'L', 'U', 'S']) = "preeti_plus" ∧
    Variants.detectVariant [] (some ['K', 'a', 'n', 't', 'i', 'p', 'u', 'r']) = "kantipur" ∧
    Variants.detectVariant ['ç'] none = "preeti_plus" ∧
    Variants.detectVariant ['Ç'] none = "kantipur" ∧
    Variants.detectVariant ['x'] none = "standard" :=
  ⟨claim_C4_amended.1 [] _ (by decide) (by decide),
   claim_C4_amended.2.1 [] _ (by decide) (by decide) (by decide),
   claim_C4_amended.2.2.1 _ (by decide),
   claim_C4_amended.2.2.2.1 _ (by decide) (by decide),
   claim_C4_amended.2.2.2.2 _ (by decide) (by decide)⟩

lemma validateRules_enumFrom_eq_nil (l : List Custom.MappingRule) (n : Nat) :
    ((l.enumFrom n).flatMap fun p =>
        (if p.2.fromChar = [] then
           ["Rule " ++ toString p.1 ++ ": source character is required"]
         else []) ++
        (if p.2.toChar = [] then
           ["Rule " ++ toString p.1 ++ ": target character is required"]
         else [])) = [] ↔
      ∀ r ∈ l, r.fromChar ≠ [] ∧ r.toChar ≠ [] := by
  induction l generalizing n with
  | nil => simp
  | cons r l ih =>
    simp only [List.enumFrom_cons, List.flatMap_cons, List.append_eq_nil,
      List.mem_cons, forall_eq_or_imp, ih]
    constructor
    · rintro ⟨⟨h1, h2⟩, h3⟩
      refine ⟨⟨?_, ?_⟩, h3⟩
      · intro hc; simp [hc] at h1
      · intro hc; simp [hc] at h2
    · rintro ⟨⟨h1, h2⟩, h3⟩
      exact ⟨⟨by simp [h1], by simp [h2]⟩, h3⟩

/-- C5 (counterexample): a structurally invalid definition — empty name
and empty rule list, flagged as invalid by the repository's own default
validators — still registers successfully: `register_font` raises no
`ConfigurationError`. -/
theorem claim_C5_counterexample :
    Custom.registerFont ⟨[], [], "custom".toList, []⟩ =
      Except.ok (Fonts.FontMapping.mk' [] []) ∧
    Custom.validateDefinition ⟨[], [], "custom".toList, []⟩ ≠ [] := by
  exact ⟨rfl, by decide⟩

/-- C5 (amended): `FontRegistry.register_font` itself never fails — it
converts any definition, validated or not, and registers the result.  The
structural checks live in `CustomFontLoader.validate_definition`, whose
default validators return an empty error list exactly when the name, the
display name and the rule list are non-empty and every rule has a
non-empty source and target (the file/dict loading paths raise on a
non-empty error list; direct registration bypasses them). -/
theorem claim_C5_amended :
    (∀ d : Custom.FontDefinition,
        Custom.registerFont d = Except.ok d.toFontMapping) ∧
    (∀ d : Custom.FontDefinition,
        Custom.validateDefinition d = [] ↔
          (d.name ≠ [] ∧ d.displayName ≠ [] ∧ d.rules ≠ [] ∧
           ∀ r ∈ d.rules, r.fromChar ≠ [] ∧ r.toChar ≠ [])) := by
  refine ⟨fun d => rfl, fun d => ?_⟩
  unfold Custom.validateDefinition Custom.validateBasicFields Custom.validateRules
  rw [show d.rules.enum = d.rules.enumFrom 0 from rfl,
    List.append_eq_nil, List.append_eq_nil, List.append_eq_nil,
    validateRules_enumFrom_eq_nil]
  constructor
  · rintro ⟨⟨⟨h1, h2⟩, h3⟩, h4⟩
    refine ⟨?_, ?_, ?_, h4⟩
    · intro hc; simp [hc] at h1
    · intro hc; simp [hc] at h2
    · intro hc; simp [hc] at h3
  · rintro ⟨h1, h2, h3, h4⟩
    exact ⟨⟨⟨by simp [h1], by simp [h2]⟩, by simp [h3]⟩, h4⟩

/-- C5 (witness): the amended statement at a concrete valid definition. -/
theorem claim_C5_witness :
    Custom.registerFont ⟨['f'], ['F'], "custom".toList, [⟨['a'], ['b'], 0, none, none⟩]⟩ =
      Except.ok (Custom.FontDefinition.toFontMapping
        ⟨['f'], ['F'], "custom".toList, [⟨['a'], ['b'], 0, none, none⟩]⟩) ∧
    Custom.validateDefinition ⟨['f'], ['F'], "custom".toList, [⟨['a'], ['b'], 0, none, none⟩]⟩ = [] :=
  ⟨claim_C5_amended.1 _, (claim_C5_amended.2 _).mpr (by decide)⟩

/-- A character the converter recognizes: an ASCII letter, an ASCII digit,
or a key of `symbols_dict`.  Every literal-substitution pattern and both
normalizer marker characters (`l`, `{`) consist of such characters. -/
def recognizedChar (c : Char) : Prop :=
  (97 ≤ c.toNat ∧ c.toNat ≤ 122) ∨ (65 ≤ c.toNat ∧ c.toNat ≤ 90) ∨
  (48 ≤ c.toNat ∧ c.toNat ≤ 57) ∨ (Preeti.symbolsDict c).isSome

instance (c : Char) : Decidable (recognizedChar c) := by
  unfold recognizedChar; infer_instance

lemma replace2_id (a b : Char) (r : List Char) :
    ∀ t : List Char, a ∉ t → Preeti.replace2 a b r t = t := by
  intro t
  induction t with
  | nil => intro _; rfl
  | cons c rest ih =>
    intro h
    cases rest with
    | nil => rfl
    | cons c1 rest2 =>
      have hca : c ≠ a := fun hc => h (hc ▸ List.mem_cons_self c _)
      rw [Preeti.replace2, if_neg (fun hc => hca hc.1)]
      rw [ih (fun hin => h (List.mem_cons_of_mem c hin))]

lemma normCore_id :
    ∀ t : List Char, '{' ∉ t → 'l' ∉ t → Preeti.normCore t [] = t := by
  intro t
  induction t with
  | nil => intro _ _; rfl
  | cons c rest ih =>
    intro hb hl
    have hcl : c ≠ 'l' := fun hc => hl (hc ▸ List.mem_cons_self c _)
    have hrest := fun hin => hb (List.mem_cons_of_mem c hin)
    have hrestl := fun hin => hl (List.mem_cons_of_mem c hin)
    cases rest with
    | nil => simp [Preeti.normCore, hcl]
    | cons c1 rest2 =>
      have hc1 : c1 ≠ '{' :=
        fun hc => hrest (hc ▸ List.mem_cons_self c1 _)
      cases rest2 with
      | nil =>
        rw [Preeti.normCore, if_neg (fun hc => hc1 hc.1), if_neg hcl]
        simpa using ih hrest hrestl
      | cons c2 rest3 =>
        have hc2 : c2 ≠ '{' := fun hc =>
          hrest (hc ▸ List.mem_cons_of_mem c1 (List.mem_cons_self c2 _))
        rw [Preeti.normCore, if_neg (fun hc => hc2 hc.1),
          if_neg (fun hc => hc1 hc.1), if_neg hcl]
        simpa using ih hrest hrestl

lemma flatten_map_singleton :
    ∀ t : List Char, (t.map fun c => [c]).flatten = t := by
  intro t
  induction t with
  | nil => rfl
  | cons c rest ih => simp [ih]

/-- C10: on input containing no recognized source characters — no ASCII
letters, no ASCII digits, no `symbols_dict` keys (hence no literal
substitution sequence and no normalizer marker can occur) — `convert_text`
is the identity. -/
theorem claim_C10_identity :
    ∀ (t : List Char) (b : Bool), (∀ c ∈ t, ¬ recognizedChar c) →
      Preeti.convertText t b = t := by
  intro t b h
  have hnot : ∀ x : Char, recognizedChar x → x ∉ t := fun x hx hin => h x hin hx
  by_cases ht : t = []
  · simp [Preeti.convertText, ht]
  · have hreps : Preeti.applyReps t = t := by
      unfold Preeti.applyReps
      rw [replace2_id _ _ _ t (hnot 'q' (by decide)),
        replace2_id _ _ _ t (hnot 'f' (by decide)),
        replace2_id _ _ _ t (hnot 'k' (by decide)),
        replace2_id _ _ _ t (hnot '0' (by decide)),
        replace2_id _ _ _ t (hnot 'I' (by decide)),
        replace2_id _ _ _ t (hnot 'i' (by decide)),
        replace2_id _ _ _ t (hnot 'c' (by decide))]
    have hnorm : Preeti.normalizePreeti t = t := by
      unfold Preeti.normalizePreeti
      rw [if_neg ht, hreps]
      exact normCore_id t (hnot '{' (by decide)) (hnot 'l' (by decide))
    have hchar : ∀ c ∈ t, Preeti.convertChar c = [c] := by
      intro c hc
      have hrec := h c hc
      unfold recognizedChar at hrec
      push_neg at hrec
      obtain ⟨h1, h2, h3, h4⟩ := hrec
      have hsym : Preeti.symbolsDict c = none := by
        cases hs : Preeti.symbolsDict c with
        | none => rfl
        | some s => exact absurd (by simp [hs]) h4
      unfold Preeti.convertChar Preeti.convertCharTry
      rw [if_neg (by omega), if_neg (by omega), if_neg (by omega)]
      simp [hsym]
    have hconv : Preeti.convertToUnicode t = t := by
      unfold Preeti.convertToUnicode
      rw [if_neg ht, hnorm]
      rw [show t.map Preeti.convertChar = t.map fun c => [c] from
        List.map_congr_left hchar]
      exact flatten_map_singleton t
    have hdig : ∀ d ∈ t, ¬ isAsciiDigit d := by
      intro d hd hdig
      exact h d hd (Or.inr (Or.inr (Or.inl ⟨hdig.1, hdig.2⟩)))
    unfold Preeti.convertText
    rw [if_neg ht]
    cases b
    · simpa using hconv
    · simpa [hconv] using convertNumbersToNepali_of_no_digit
        (by simpa [hconv] using hdig)

/-- C10 (witness): already-Unicode text is returned unchanged. -/
theorem claim_C10_witness :
    Preeti.convertText ['न', 'म'] true = ['न', 'म'] :=
  claim_C10_identity ['न', 'म'] true (by decide)

lemma replace2_append_l (a b : Char) (r : List Char)
    (hb : b ≠ 'l') :
    ∀ t : List Char,
      Preeti.replace2 a b r (t ++ ['l']) = Preeti.replace2 a b r t ++ ['l'] := by
  have H : ∀ (n : Nat) (t : List Char), t.length ≤ n →
      Preeti.replace2 a b r (t ++ ['l']) = Preeti.replace2 a b r t ++ ['l'] := by
    intro n
    induction n with
    | zero =>
      intro t hle
      obtain rfl : t = [] := List.eq_nil_of_length_eq_zero (Nat.le_zero.mp hle)
      simp [Preeti.replace2]
    | succ n ih =>
      intro t hle
      rcases t with _ | ⟨c, _ | ⟨c1, rest⟩⟩
      · simp [Preeti.replace2]
      · have hcb : ¬ (c = a ∧ ('l' : Char) = b) := fun hh => hb hh.2.symm
        simp [Preeti.replace2, hcb]
      · have hr : rest.length ≤ n := by simp at hle; omega
        have hr1 : (c1 :: rest).length ≤ n := by simp at hle ⊢; omega
        have ih1 := ih (c1 :: rest) hr1
        simp only [List.cons_append] at ih1
        by_cases hc : c = a ∧ c1 = b
        · simp [Preeti.replace2, hc, ih rest hr]
        · simp [Preeti.replace2, hc, ih1]
  exact fun t => H t.length t le_rfl

lemma applyReps_append_l (t : List Char) :
    Preeti.applyReps (t ++ ['l']) = Preeti.applyReps t ++ ['l'] := by
  unfold Preeti.applyReps
  rw [replace2_append_l _ _ _ (by decide) t,
    replace2_append_l _ _ _ (by decide),
    replace2_append_l _ _ _ (by decide),
    replace2_append_l _ _ _ (by decide),
    replace2_append_l _ _ _ (by decide),
    replace2_append_l _ _ _ (by decide),
    replace2_append_l _ _ _ (by decide)]

lemma normCore_append_l :
    ∀ (t p : List Char), Preeti.normCore (t ++ ['l']) p = Preeti.normCore t p := by
  have H : ∀ (n : Nat) (t p : List Char), t.length ≤ n →
      Preeti.normCore (t ++ ['l']) p = Preeti.normCore t p := by
    intro n
    induction n with
    | zero =>
      intro t p hle
      obtain rfl : t = [] := List.eq_nil_of_length_eq_zero (Nat.le_zero.mp hle)
      simp [Preeti.normCore]
    | succ n ih =>
      intro t p hle
      rcases t with _ | ⟨c, _ | ⟨c1, _ | ⟨c2, rest⟩⟩⟩
      · simp [Preeti.normCore]
      · by_cases hc : c = 'l'
        · subst hc; simp [Preeti.normCore]
        · simp [Preeti.normCore, hc]
      · have h1 : ([c1] : List Char).length ≤ n := by simp at hle ⊢; omega
        by_cases h2 : c1 = '{' ∧ c ≠ 'f'
        · simp [Preeti.normCore, h2]
        · by_cases hc : c = 'l'
          · subst hc
            have hc1 : c1 ≠ '{' := by
              intro hcc
              exact h2 ⟨hcc, by decide⟩
            simp [Preeti.normCore, hc1, ih [c1] ['l'] h1]
          · simp [Preeti.normCore, h2, hc, ih [c1] [] h1]
      · have hr : rest.length ≤ n := by simp at hle; omega
        have hr1 : (c2 :: rest).length ≤ n := by simp at hle ⊢; omega
        have hr2 : (c1 :: c2 :: rest).length ≤ n := by simp at hle ⊢; omega
        have ihc2 := fun p => ih (c2 :: rest) p hr1
        have ihc1 := fun p => ih (c1 :: c2 :: rest) p hr2
        simp only [List.cons_append] at ihc2 ihc1
        by_cases b1 : c2 = '{' ∧ (c1 = 'f' ∨ c1 = 'ो')
        · simp [Preeti.normCore, b1, ih rest p hr]
        · by_cases b2 : c1 = '{' ∧ c ≠ 'f'
          · simp [Preeti.normCore, b1, b2, ihc2 p]
          · by_cases hc : c = 'l'
            · subst hc
              have hc1 : c1 ≠ '{' := fun h => b2 ⟨h, by decide⟩
              simp [Preeti.normCore, b1, hc1, ihc1 ['l']]
            · simp [Preeti.normCore, b1, b2, hc, ihc1 []]
  exact fun t p => H t.length t p le_rfl

/-- C9: a trailing pre-base marker (an `l` ending the input) is dropped:
normalization, and therefore the whole conversion, of `t ++ "l"` coincide
with those of `t`, so the pending marker contributes no mapping output. -/
theorem claim_C9_trailing_drop :
    ∀ (t : List Char) (b : Bool),
      Preeti.normalizePreeti (t ++ ['l']) = Preeti.normalizePreeti t ∧
      Preeti.convertText (t ++ ['l']) b = Preeti.convertText t b := by
  intro t b
  have hnorm : Preeti.normalizePreeti (t ++ ['l']) = Preeti.normalizePreeti t := by
    by_cases ht : t = []
    · subst ht; decide
    · unfold Preeti.normalizePreeti
      rw [if_neg (by simp), if_neg ht, applyReps_append_l t, normCore_append_l]
  refine ⟨hnorm, ?_⟩
  have hcu : Preeti.convertToUnicode (t ++ ['l']) = Preeti.convertToUnicode t := by
    unfold Preeti.convertToUnicode
    rw [if_neg (by simp), hnorm]
    by_cases ht : t = []
    · subst ht; simp [Preeti.normalizePreeti]
    · rw [if_neg ht]
  unfold Preeti.convertText
  rw [if_neg (by simp), hcu]
  by_cases ht : t = []
  · subst ht
    simp [Preeti.convertToUnicode, Preeti.convertNumbersToNepali]
  · rw [if_neg ht]

/-- Proof device: the `previous_symbol` scan of `normalize_preeti` with
the two brace-lookahead branches removed; on brace-free text it agrees
with `normCore` (next lemma). -/
def scanS : List Char → List Char → List Char
  | [], _ => []
  | c :: rest, p => if c = 'l' then scanS rest ['l'] else c :: (p ++ scanS rest [])

/-- No two consecutive `l` characters. -/
def noLL : List Char → Bool
  | a :: b :: r => (!(a == 'l' && b == 'l')) && noLL (b :: r)
  | _ => true

lemma normCore_braceFree :
    ∀ (t : List Char) (p : List Char), '{' ∉ t →
      Preeti.normCore t p = scanS t p := by
  intro t
  induction t with
  | nil => intro p _; rfl
  | cons c rest ih =>
    intro p hb
    have hbrest : '{' ∉ rest := fun hin => hb (List.mem_cons_of_mem c hin)
    cases rest with
    | nil => simp [Preeti.normCore, scanS]
    | cons c1 rest2 =>
      have hc1 : c1 ≠ '{' :=
        fun hc => hbrest (hc ▸ List.mem_cons_self c1 _)
      cases rest2 with
      | nil =>
        rw [Preeti.normCore, if_neg (fun hcc => hc1 hcc.1)]
        by_cases hc : c = 'l'
        · rw [if_pos hc, ih ['l'] hbrest]; simp [scanS, hc]
        · rw [if_neg hc, ih [] hbrest]; simp [scanS, hc]
      | cons c2 rest3 =>
        have hc2 : c2 ≠ '{' := fun hc =>
          hbrest (hc ▸ List.mem_cons_of_mem c1 (List.mem_cons_self c2 _))
        rw [Preeti.normCore, if_neg (fun hcc => hc2 hcc.1),
          if_neg (fun hcc => hc1 hcc.1)]
        by_cases hc : c = 'l'
        · rw [if_pos hc, ih ['l'] hbrest]; simp [scanS, hc]
        · rw [if_neg hc, ih [] hbrest]; simp [scanS, hc]

lemma scanS_perm :
    ∀ t : List Char, noLL t = true → t.getLast? ≠ some 'l' →
      (scanS t []).Perm t ∧
      (t ≠ [] → t.head? ≠ some 'l' → (scanS t ['l']).Perm ('l' :: t)) := by
  intro t
  induction t with
  | nil => intro _ _; exact ⟨List.Perm.refl [], fun h => absurd rfl h⟩
  | cons c rest ih =>
    intro hnll hlast
    have hnll' : noLL rest = true := by
      cases rest with
      | nil => rfl
      | cons b r =>
        have := hnll
        simp only [noLL, Bool.and_eq_true] at this
        exact this.2
    have hlast' : rest.getLast? ≠ some 'l' := by
      cases rest with
      | nil => simp
      | cons b r => simpa [List.getLast?_cons_cons] using hlast
    constructor
    · by_cases hc : c = 'l'
      · subst hc
        cases rest with
        | nil => exact absurd rfl hlast
        | cons b r =>
          have hbne : b ≠ 'l' := by
            have := hnll
            simp only [noLL, Bool.and_eq_true, Bool.not_eq_true',
              Bool.and_eq_false_iff, beq_eq_false_iff_ne] at this
            rcases this.1 with h | h
            · exact absurd rfl h
            · exact h
          have h2 := (ih hnll' hlast').2 (by simp) (by simp [hbne])
          simpa [scanS] using h2
      · have h1 := (ih hnll' hlast').1
        simpa [scanS, hc] using h1.cons c
    · intro _ hhead
      have hc : c ≠ 'l' := by simpa using hhead
      have h1 := (ih hnll' hlast').1
      have hp : (c :: 'l' :: scanS rest []).Perm ('l' :: c :: rest) :=
        ((h1.cons 'l').cons c).trans (List.Perm.swap 'l' c rest)
      simpa [scanS, hc] using hp

/-- C8 (counterexample): in `lla` both occurrences of the marker `l` are
followed by further characters, yet normalization (whose literal
pre-substitutions leave `lla` unchanged) keeps only one of them — the
first pending marker is overwritten by the second, an information loss not
covered by the drop-at-end-of-string exception. -/
theorem claim_C8_counterexample :
    Preeti.applyReps ['l', 'l', 'a'] = ['l', 'l', 'a'] ∧
    Preeti.normalizePreeti ['l', 'l', 'a'] = ['a', 'l'] ∧
    (Preeti.normalizePreeti ['l', 'l', 'a']).count 'l' <
      (['l', 'l', 'a'] : List Char).count 'l' := by
  decide

/-- C8 (amended): normalization only reorders whenever it loses nothing:
if the pre-substituted text contains no stacking marker `{`, no two
consecutive `l`, and does not end in `l`, the output of
`normalize_preeti` is a permutation of the pre-substituted text — in
particular every occurrence of `l` (each followed by a further character)
is preserved.  Consecutive markers (counterexample `lla`) overwrite the
pending marker, and a `{`-lookahead can leave a pending marker unemitted
at end of input, so those inputs are excluded. -/
theorem claim_C8_amended :
    ∀ t : List Char, '{' ∉ Preeti.applyReps t →
      noLL (Preeti.applyReps t) = true →
      (Preeti.applyReps t).getLast? ≠ some 'l' →
      (Preeti.normalizePreeti t).Perm (Preeti.applyReps t) := by
  intro t hb hn hl
  by_cases ht : t = []
  · subst ht; decide
  · unfold Preeti.normalizePreeti
    rw [if_neg ht, normCore_braceFree _ _ hb]
    exact (scanS_perm _ hn hl).1

/-- C8 (witness): the amended permutation statement at `lab`. -/
theorem claim_C8_witness :
    (Preeti.normalizePreeti ['l', 'a', 'b']).Perm (Preeti.applyReps ['l', 'a', 'b']) :=
  claim_C8_amended ['l', 'a', 'b'] (by decide) (by decide) (by decide)

lemma convertLoop_at_end (fuel : Nat) (rules : List Fonts.FontRule)
    (res : List Char) (pos : Nat) (h : res.length ≤ pos) :
    Fonts.convertLoop fuel rules res pos = res := by
  cases fuel with
  | zero => rfl
  | succ n => rw [Fonts.convertLoop, if_neg (not_lt.mpr h)]

lemma convertText_full_match (m : Fonts.FontMapping) (text : List Char)
    (r : Fonts.FontRule) (htext : text ≠ [])
    (hfind : Fonts.findRule m.rules text 0 = some r)
    (hsrc : r.source = text) :
    m.convertText text = r.target := by
  unfold Fonts.FontMapping.convertText
  rw [if_neg htext, Fonts.convertLoop,
    if_pos (by cases text with
      | nil => exact absurd rfl htext
      | cons _ _ => simp), hfind]
  have happ : Fonts.FontRule.applyRule r text 0 = (r.target, r.target.length) := by
    unfold Fonts.FontRule.applyRule
    rw [hsrc]
    simp
  dsimp only
  rw [happ]
  exact convertLoop_at_end _ _ _ _ le_rfl

/-- C1 (counterexample): rules are sorted by priority only — source length
never enters the order, and Python's stable sort keeps insertion order on
ties.  With a 1-character rule `a → X` and a 2-character rule `ab → Y` at
equal priority (the claim's "equal or higher"), added in that order,
`convert_text "ab"` resolves `a` by the short rule and yields `Xb`, not
the 2-character rule's `Y`. -/
theorem claim_C1_counterexample :
    (Fonts.FontMapping.mk' ['m']
        [⟨['a'], ['X'], 0, none, none⟩, ⟨['a', 'b'], ['Y'], 0, none, none⟩]).rules =
      [⟨['a'], ['X'], 0, none, none⟩, ⟨['a', 'b'], ['Y'], 0, none, none⟩] ∧
    (Fonts.FontMapping.mk' ['m']
        [⟨['a'], ['X'], 0, none, none⟩, ⟨['a', 'b'], ['Y'], 0, none, none⟩]).convertText
        ['a', 'b'] = ['X', 'b'] ∧
    (['X', 'b'] : List Char) ≠ ['Y'] := by
  refine ⟨rfl, ?_, by decide⟩
  rfl

/-- C1 (amended): the rule list is kept sorted by priority descending only
(ties keep insertion order); when the 2-character rule for `c1c2` has
strictly higher priority than the 1-character rule for `c1`, it sorts in
front and `convert_text` resolves `c1c2` through it, whichever order the
two rules were added in. -/
theorem claim_C1_amended :
    ∀ (nm : List Char) (c1 c2 : Char) (t1 t2 : List Char) (p1 p2 : Int),
      p1 < p2 →
      (((Fonts.FontMapping.mk' nm []).addRule ⟨[c1], t1, p1, none, none⟩).addRule
          ⟨[c1, c2], t2, p2, none, none⟩).convertText [c1, c2] = t2 ∧
      (((Fonts.FontMapping.mk' nm []).addRule ⟨[c1, c2], t2, p2, none, none⟩).addRule
          ⟨[c1], t1, p1, none, none⟩).convertText [c1, c2] = t2 := by
  intro nm c1 c2 t1 t2 p1 p2 h
  have hnp : ¬ ((⟨[c1], t1, p1, none, none⟩ : Fonts.FontRule).priority ≥
      (⟨[c1, c2], t2, p2, none, none⟩ : Fonts.FontRule).priority) := not_le.mpr h
  have hp : (⟨[c1, c2], t2, p2, none, none⟩ : Fonts.FontRule).priority ≥
      (⟨[c1], t1, p1, none, none⟩ : Fonts.FontRule).priority := le_of_lt h
  have hr1 : ((Fonts.FontMapping.mk' nm []).addRule
      ⟨[c1], t1, p1, none, none⟩).addRule ⟨[c1, c2], t2, p2, none, none⟩ =
      ⟨nm, [⟨[c1, c2], t2, p2, none, none⟩, ⟨[c1], t1, p1, none, none⟩]⟩ := by
    unfold Fonts.FontMapping.mk' Fonts.FontMapping.addRule Fonts.sortRules
    simp [Fonts.insertRule, hnp]
  have hr2 : ((Fonts.FontMapping.mk' nm []).addRule
      ⟨[c1, c2], t2, p2, none, none⟩).addRule ⟨[c1], t1, p1, none, none⟩ =
      ⟨nm, [⟨[c1, c2], t2, p2, none, none⟩, ⟨[c1], t1, p1, none, none⟩]⟩ := by
    unfold Fonts.FontMapping.mk' Fonts.FontMapping.addRule Fonts.sortRules
    simp [Fonts.insertRule, hp]
  have hfind :
      Fonts.findRule [⟨[c1, c2], t2, p2, none, none⟩, ⟨[c1], t1, p1, none, none⟩]
        [c1, c2] 0 = some ⟨[c1, c2], t2, p2, none, none⟩ := by
    unfold Fonts.findRule
    apply List.find?_cons_of_pos
    simp [Fonts.FontRule.matchesContext]
  have hconv :
      (⟨nm, [⟨[c1, c2], t2, p2, none, none⟩, ⟨[c1], t1, p1, none, none⟩]⟩ :
        Fonts.FontMapping).convertText [c1, c2] = t2 :=
    convertText_full_match
      ⟨nm, [⟨[c1, c2], t2, p2, none, none⟩, ⟨[c1], t1, p1, none, none⟩]⟩
      [c1, c2] ⟨[c1, c2], t2, p2, none, none⟩ (by simp) hfind rfl
  rw [hr1, hr2]
  exact ⟨hconv, hconv⟩

/-- C1 (witness): the amended longest-match statement at concrete rules
`a → X` (priority 0) and `ab → Y` (priority 1). -/
theorem claim_C1_witness :
    (((Fonts.FontMapping.mk' ['m'] []).addRule ⟨['a'], ['X'], 0, none, none⟩).addRule
        ⟨['a', 'b'], ['Y'], 1, none, none⟩).convertText ['a', 'b'] = ['Y'] ∧
    (((Fonts.FontMapping.mk' ['m'] []).addRule ⟨['a', 'b'], ['Y'], 1, none, none⟩).addRule
        ⟨['a'], ['X'], 0, none, none⟩).convertText ['a', 'b'] = ['Y'] :=
  claim_C1_amended ['m'] 'a' 'b' ['X'] ['Y'] 0 1 (by decide)

lemma find?_congr {α : Type} (p q : α → Bool) :
    ∀ l : List α, (∀ x ∈ l, p x = q x) → l.find? p = l.find? q := by
  intro l
  induction l with
  | nil => intro _; rfl
  | cons a l ih =>
    intro h
    rw [List.find?_cons, List.find?_cons, h a (List.mem_cons_self a l),
      ih (fun x hx => h x (List.mem_cons_of_mem a hx))]

lemma findRule_eq_refFind (rules : List Fonts.FontRule)
    (out rest prev : List Char)
    (hyp : ∀ r ∈ rules, r.ctxBefore = none ∨ r.ctxBefore = some []) :
    Fonts.findRule rules (out ++ rest) out.length = Fonts.refFind rules prev rest := by
  unfold Fonts.findRule Fonts.refFind
  apply find?_congr
  intro r hr
  have hd : (decide (out.length + r.source.length ≤ (out ++ rest).length)) =
      (decide (r.source.length ≤ rest.length)) := by
    apply decide_eq_decide.mpr
    rw [List.length_append]; omega
  rw [List.drop_left, hd]
  unfold Fonts.FontRule.matchesContext
  rcases hyp r hr with hb | hb <;> rw [hb] <;>
    cases hca : r.ctxAfter <;>
      simp [Bool.and_assoc, List.drop_append]

lemma convertLoop_refines :
    ∀ (fuel : Nat) (rules : List Fonts.FontRule) (out rest prev : List Char),
      (∀ r ∈ rules, r.source ≠ [] ∧ (r.ctxBefore = none ∨ r.ctxBefore = some [])) →
      rest.length < fuel →
      Fonts.convertLoop fuel rules (out ++ rest) out.length =
        out ++ Fonts.refGo fuel rules prev rest := by
  intro fuel
  induction fuel with
  | zero => intro rules out rest prev _ h; omega
  | succ n ih =>
    intro rules out rest prev hyp hlt
    cases rest with
    | nil =>
      rw [Fonts.convertLoop, if_neg (by simp)]
      simp [Fonts.refGo]
    | cons c rest' =>
      rw [Fonts.convertLoop, if_pos (by simp), Fonts.refGo,
        findRule_eq_refFind rules out (c :: rest') prev (fun r hr => (hyp r hr).2)]
      cases hf : Fonts.refFind rules prev (c :: rest') with
      | none =>
        dsimp only
        rw [show out.length + 1 = (out ++ [c]).length by simp,
          show out ++ c :: rest' = (out ++ [c]) ++ rest' by simp,
          ih rules (out ++ [c]) rest' (prev ++ [c]) hyp (by simp at hlt ⊢; omega)]
        simp
      | some r =>
        dsimp only
        have hr : r ∈ rules := List.mem_of_find?_eq_some hf
        have hn1 : 1 ≤ r.source.length := by
          have hne := (hyp r hr).1
          cases hsrc : r.source with
          | nil => exact absurd hsrc hne
          | cons _ _ => simp [hsrc]
        have happ : Fonts.FontRule.applyRule r (out ++ c :: rest') out.length =
            ((out ++ r.target) ++ (c :: rest').drop r.source.length,
              (out ++ r.target).length) := by
          unfold Fonts.FontRule.applyRule
          rw [List.take_left, List.drop_append]
          simp
        rw [happ]
        dsimp only
        rw [ih rules (out ++ r.target) ((c :: rest').drop r.source.length)
          (prev ++ (c :: rest').take r.source.length) hyp
          (by simp at hlt ⊢; omega)]
        simp

/-- C3 (counterexample): the code and the reference resolver disagree as
soon as a rule carries `context_before`.  Rules `a → X` and `b → Q` with
`context_before = "a"` on input `ab`: the reference resolver checks the
context against the unmodified normalized source (`...a` precedes, so it
emits `XQ`), while `FontMapping.convert_text` rewrites the text in place
and checks the context against the already-converted prefix `X`, so the
contextual rule never fires and it returns `Xb`. -/
theorem claim_C3_counterexample :
    (Fonts.FontMapping.mk' ['m']
        [⟨['a'], ['X'], 0, none, none⟩, ⟨['b'], ['Q'], 0, some ['a'], none⟩]).convertText
        ['a', 'b'] = ['X', 'b'] ∧
    Fonts.refResolve
        (Fonts.FontMapping.mk' ['m']
          [⟨['a'], ['X'], 0, none, none⟩, ⟨['b'], ['Q'], 0, some ['a'], none⟩]).rules
        ['a', 'b'] = ['X', 'Q'] ∧
    (['X', 'b'] : List Char) ≠ ['X', 'Q'] := by
  exact ⟨rfl, rfl, by decide⟩

/-- C3 (amended): for rule sets in which every rule has a non-empty source
and no (non-empty) `context_before`, `FontMapping.convert_text` computes
exactly the reference resolver of the spec: first matching rule's target
appended to a separate output, cursor advanced by the source length over
the unmodified input, `context_after` checked against the input following
the matched span.  (`context_before` breaks the refinement because the
code checks it against the partially converted text, as the
counterexample shows.) -/
theorem claim_C3_amended :
    ∀ (m : Fonts.FontMapping) (text : List Char),
      (∀ r ∈ m.rules, r.source ≠ [] ∧ (r.ctxBefore = none ∨ r.ctxBefore = some [])) →
      m.convertText text = Fonts.refResolve m.rules text := by
  intro m text hyp
  by_cases ht : text = []
  · subst ht
    rfl
  · unfold Fonts.FontMapping.convertText Fonts.refResolve
    rw [if_neg ht]
    have := convertLoop_refines (text.length + 1) m.rules [] text [] hyp
      (Nat.lt_succ_self _)
    simpa using this

/-- C3 (witness): code and reference resolver agree on a context-free
single rule `a → X` over input `ab`. -/
theorem claim_C3_witness :
    (Fonts.FontMapping.mk' ['m'] [⟨['a'], ['X'], 0, none, none⟩]).convertText ['a', 'b'] =
      Fonts.refResolve
        (Fonts.FontMapping.mk' ['m'] [⟨['a'], ['X'], 0, none, none⟩]).rules ['a', 'b'] :=
  claim_C3_amended _ ['a', 'b'] (by decide)
